import Mathlib

/-!
Verification of the BBCode dialect of
`app/assets/javascripts/discourse/dialects/bbcode_dialect.js`.

The file under `src/` is a catalog of rule registrations against the external
`Discourse.Dialect` engine (`inlineBetween`, `replaceBlock`, `processInline`).
The emitters, the parameter-splitting regular expression, and the registration
order are transcribed from the source; the generic matching engine itself is
not part of `src/` and is modelled from the spec (sections 4.3 and 4.5),
as marked on each such definition.
-/

set_option maxRecDepth 4000

namespace BBCode

/-- Markup tree node. JsonML arrays `[tag, {attrs}, child...]` produced by the
emitters become `element`; JsonML string entries become `text`. Attributes are
an ordered association list, as in the source's object literals. -/
inductive Node where
  | element : String → List (String × String) → List Node → Node
  | text : String → Node

/-- Emitters of plain (non-raw) tags registered via `replaceBBCode`; the engine
hands them the already-processed contents. One constructor per closure in the
source file; `align` captures the `direction` variable of the loop at line 136. -/
inductive PlainE where
  | bB | bI | bU | bS
  | bUl | bOl | bLi
  | small | highlight
  | align (direction : String)
  | edit | ot | indent
deriving DecidableEq

/-- Emitters of raw tags registered via `rawBBCode`; they receive the matched
span as an unprocessed string. -/
inductive RawE where
  | img | emailRaw | urlRaw | spoiler | noparse | fphpRaw | google
deriving DecidableEq

/-- User emitters of parameterized raw tags (`replaceBBCodeParamsRaw`): they
receive `param` and the unprocessed `contents` string. -/
inductive PRawE where
  | fphpParam
deriving DecidableEq

/-- User emitters of parameterized recursive tags (`replaceBBCodeParams`): they
receive `param` and the contents after inline reprocessing. -/
inductive PRecE where
  | urlParam | emailParam | sizeFirst | colorParam | sizeSecond | fontParam
  | anameParam | jumptoParam | ruleParam
deriving DecidableEq

/-- The four shapes of inline emitters. `plain` corresponds to
`rawContents = false`; the other three all register with `rawContents = true`
(`replaceBBCodeParamsRaw` sets it at line 46). -/
inductive EKind where
  | plain : PlainE → EKind
  | raw : RawE → EKind
  | paramRaw : PRawE → EKind
  | paramRec : PRecE → EKind
deriving DecidableEq

/-- An inline rule as registered with `Discourse.Dialect.inlineBetween`:
literal start and stop tokens plus the emitter. None of the registrations in
this file set `wordBoundary` or `spaceBoundary`, so those flags are omitted. -/
structure Rule where
  start : List Char
  stop : List Char
  kind : EKind
deriving DecidableEq

/-- A character is one of the two quote characters recognised by the
parameter-splitting pattern `["']`. -/
def isQuote (c : Char) : Bool := c == '"' || c == '\''

/-- A character is an ECMAScript line terminator: `\n`, `\r`, U+2028 or
U+2029. In the line-48 pattern, `.` — and hence `(.+?)` and `(.*)` — matches
any character except these, and `$` matches only at the very end. -/
def isLineTerm (c : Char) : Bool :=
  c == '\n' || c == '\r' || c == '\u2028' || c == '\u2029'

/-- No line terminator in the list: required wherever `(.+?)` or `(.*)$` must
cover the characters. -/
def noLT (l : List Char) : Bool := l.all (fun c => !(isLineTerm c))

/-- Backtracking search of `(.+?)["']?\](.*)$` over the remaining characters:
`acc` is the (reversed) body matched by the lazy `(.+?)` so far. For each body
length, first the greedy optional trailing quote is tried, then the bare `]`;
the remainder must be free of line terminators so that `(.*)$` can close the
match, and a line terminator in the body aborts the whole (anchored) match. -/
def findSplit (acc : List Char) : List Char → Option (List Char × List Char)
  | [] => none
  | c :: rest =>
    if isLineTerm c then none
    else
      match rest with
      | [] => none
      | [q] =>
        if q == ']' then some ((c :: acc).reverse, []) else none
      | q :: d :: r =>
        if isQuote q && d == ']' && noLT r then some ((c :: acc).reverse, r)
        else if q == ']' && noLT (d :: r) then some ((c :: acc).reverse, d :: r)
        else findSplit (c :: acc) rest

/-- Transcription of line 48: `/^["']?(.+?)["']?\](.*)$/.exec(contents)`,
returning `(m[1], m[2])` when the pattern matches. The leading greedy `["']?`
first tries to consume a quote; only if no match exists at all on that path
does it fall back to the empty alternative. -/
def execParam (s : List Char) : Option (List Char × List Char) :=
  match s with
  | [] => none
  | c :: rest =>
    if isQuote c then
      match findSplit [] rest with
      | some r => some r
      | none => findSplit [] s
    else findSplit [] s

/-- Transcription of the built-in `parseInt(param, 10)`: skip leading
whitespace, accept one optional sign, then a leading run of decimal digits;
the result is `none` (JavaScript `NaN`) when no digit follows. -/
def jsParseInt (s : String) : Option Int :=
  let l := s.data.dropWhile (fun c => c == ' ' || c == '\t' || c == '\n' || c == '\r')
  let signAndRest : Int × List Char :=
    match l with
    | '-' :: rest => (-1, rest)
    | '+' :: rest => (1, rest)
    | _ => (1, l)
  let ds := signAndRest.2.takeWhile Char.isDigit
  if ds.isEmpty then none
  else some (signAndRest.1 * (ds.foldl (fun a c => a * 10 + (c.toNat - '0'.toNat)) 0 : Nat))

/-- Transcription of `parseInt(param, 10) || 1` at line 104: the JavaScript
`||` replaces the falsy values `NaN` and `0` (also `-0`) by `1`. -/
def sizeNum (p : String) : Int :=
  match jsParseInt p with
  | none => 1
  | some n => if n = 0 then 1 else n

/-- Transcription of the test `/<img/i.test(contents)` at line 88: some
position holds a literal `<` followed by `i`, `m`, `g` compared ASCII
case-insensitively. -/
def hasImgCI : List Char → Bool
  | [] => false
  | c :: rest =>
    (c == '<' &&
      (match rest with
       | a :: b :: d :: _ => a.toLower == 'i' && b.toLower == 'm' && d.toLower == 'g'
       | _ => false)) || hasImgCI rest

/-- Bounded rendering of a node the way JavaScript stringifies a JsonML array
(elements joined by commas, an attribute object printed as `[object Object]`);
only the `rule` emitter's string concatenation at line 163 uses this, and no
claim exercises it, so a depth bound far above any input suffices. -/
def nodeJsStr : Nat → Node → String
  | _, .text s => s
  | 0, .element .. => ""
  | f + 1, .element t a ch =>
    String.intercalate "," ((if a.isEmpty then [t] else [t, "[object Object]"]) ++ ch.map (nodeJsStr f))

/-- JavaScript string coercion of the processed-contents array, as happens in
`"... 1px solid " + contents + "; ..."` at line 163. -/
def nodesJsStr (ns : List Node) : String :=
  String.intercalate "," (ns.map (nodeJsStr 1000))

/-- Emitters registered through plain `replaceBBCode`, lines 75-82, 132-138
and 157-160: each receives the processed contents and wraps them. -/
def applyPlain : PlainE → List Node → List Node
  | .bB, ns => [.element "span" [("class", "bbcode-b")] ns]
  | .bI, ns => [.element "span" [("class", "bbcode-i")] ns]
  | .bU, ns => [.element "span" [("class", "bbcode-u")] ns]
  | .bS, ns => [.element "span" [("class", "bbcode-s")] ns]
  | .bUl, ns => [.element "ul" [] ns]
  | .bOl, ns => [.element "ol" [] ns]
  | .bLi, ns => [.element "li" [] ns]
  | .small, ns => [.element "span" [("style", "font-size:x-small")] ns]
  | .highlight, ns => [.element "span" [("class", "highlight")] ns]
  | .align d, ns => [.element "div" [("style", "text-align:" ++ d)] ns]
  | .edit, ns =>
    [.element "div" [("class", "sepquote")]
      ([.element "span" [("class", "smallfont")] [.text "Edit:"],
        .element "br" [] [], .element "br" [] []] ++ ns)]
  | .ot, ns =>
    [.element "div" [("class", "sepquote")]
      ([.element "span" [("class", "smallfont")] [.text "Off Topic:"],
        .element "br" [] [], .element "br" [] []] ++ ns)]
  | .indent, ns => [.element "blockquote" [] [.element "div" [] ns]]

/-- Emitters registered through `rawBBCode`, lines 84-93, 140, 146, 151: each
receives the matched span as an unprocessed string. -/
def applyRaw : RawE → String → List Node
  | .img, s => [.element "img" [("href", s)] []]
  | .emailRaw, s => [.element "a" [("href", "mailto:" ++ s), ("data-bbcode", "true")] [.text s]]
  | .urlRaw, s => [.element "a" [("href", s), ("data-bbcode", "true")] [.text s]]
  | .spoiler, s =>
    if hasImgCI s.data then [.element "div" [("class", "spoiler")] [.text s]]
    else [.element "span" [("class", "spoiler")] [.text s]]
  | .noparse, s => [.text s]
  | .fphpRaw, s =>
    [.element "a" [("href", "http://www.php.net/manual-lookup.php?function=" ++ s),
      ("data-bbcode", "true")] [.text s]]
  | .google, s =>
    [.element "a" [("href", "http://www.google.com/search?q=" ++ s),
      ("data-bbcode", "true")] [.text s]]

/-- User emitters of `replaceBBCodeParamsRaw` registrations, line 147: `param`
and `contents` both arrive as raw strings. -/
def applyPRaw : PRawE → String → String → List Node
  | .fphpParam, p, c =>
    [.element "a" [("href", "http://www.php.net/manual-lookup.php?function=" ++ p),
      ("data-bbcode", "true")] [.text c]]

/-- User emitters of `replaceBBCodeParams` registrations, lines 95-105, 120-130,
142, 153, 162: `param` is a raw string, the contents arrive already processed
through the inline re-entry hook. -/
def applyPRec : PRecE → String → List Node → List Node
  | .urlParam, p, ns => [.element "a" [("href", p), ("data-bbcode", "true")] ns]
  | .emailParam, p, ns => [.element "a" [("href", "mailto:" ++ p), ("data-bbcode", "true")] ns]
  | .sizeFirst, p, ns => [.element "span" [("class", "bbcode-size-" ++ toString (sizeNum p))] ns]
  | .colorParam, p, ns => [.element "font" [("color", p)] ns]
  | .sizeSecond, p, ns => [.element "font" [("size", p)] ns]
  | .fontParam, p, ns => [.element "font" [("face", p)] ns]
  | .anameParam, p, ns => [.element "a" [("name", p), ("data-bbcode", "true")] ns]
  | .jumptoParam, p, ns => [.element "a" [("href", "#" ++ p), ("data-bbcode", "true")] ns]
  | .ruleParam, p, ns =>
    [.element "div"
      [("style", "margin: 6px 0; height: 0; border-top: 1px solid " ++ nodesJsStr ns ++
        "; margin: auto; width: " ++ p)] []]

/-- The `tag.toUpperCase()` of lines 22 and 57, at the character-list level
(all registered tags are ASCII). -/
def upper (tag : List Char) : List Char := tag.map Char.toUpper

/-- Transcription of `replaceBBCode` (lines 16-24): two rules are registered,
one with the lowercase spelling of the tokens `"[" + tag + "]"` /
`"[/" + tag + "]"` and one with the uppercase spelling, both sharing the one
emitter. -/
def replaceBBCode (tag : String) (k : EKind) : List Rule :=
  [⟨'[' :: tag.data ++ [']'], '[' :: '/' :: tag.data ++ [']'], k⟩,
   ⟨'[' :: upper tag.data ++ [']'], '[' :: '/' :: upper tag.data ++ [']'], k⟩]

/-- Transcription of `rawBBCode` (lines 33-35). -/
def rawBBCode (tag : String) (e : RawE) : List Rule :=
  replaceBBCode tag (.raw e)

/-- Transcription of `replaceBBCodeParamsRaw` (lines 44-59): start `"[tag="`,
stop `"[/tag]"`, again in a lowercase and an uppercase variant. -/
def replaceBBCodeParamsRaw (tag : String) (k : EKind) : List Rule :=
  [⟨'[' :: tag.data ++ ['='], '[' :: '/' :: tag.data ++ [']'], k⟩,
   ⟨'[' :: upper tag.data ++ ['='], '[' :: '/' :: upper tag.data ++ [']'], k⟩]

/-- Transcription of `replaceBBCodeParams` (lines 69-73). -/
def replaceBBCodeParams (tag : String) (e : PRecE) : List Rule :=
  replaceBBCodeParamsRaw tag (.paramRec e)

/-- The inline rule catalog after the first registration (line 75): every
later `Discourse.Dialect.inlineBetween` call in source order. -/
def catalogTail : List Rule :=
  replaceBBCode "i" (.plain .bI) ++
  replaceBBCode "u" (.plain .bU) ++
  replaceBBCode "s" (.plain .bS) ++
  replaceBBCode "ul" (.plain .bUl) ++
  replaceBBCode "ol" (.plain .bOl) ++
  replaceBBCode "li" (.plain .bLi) ++
  rawBBCode "img" .img ++
  rawBBCode "email" .emailRaw ++
  rawBBCode "url" .urlRaw ++
  rawBBCode "spoiler" .spoiler ++
  replaceBBCodeParams "url" .urlParam ++
  replaceBBCodeParams "email" .emailParam ++
  replaceBBCodeParams "size" .sizeFirst ++
  replaceBBCodeParams "color" .colorParam ++
  replaceBBCodeParams "size" .sizeSecond ++
  replaceBBCodeParams "font" .fontParam ++
  replaceBBCode "small" (.plain .small) ++
  replaceBBCode "highlight" (.plain .highlight) ++
  replaceBBCode "left" (.plain (.align "left")) ++
  replaceBBCode "center" (.plain (.align "center")) ++
  replaceBBCode "right" (.plain (.align "right")) ++
  rawBBCode "noparse" .noparse ++
  replaceBBCodeParams "aname" .anameParam ++
  rawBBCode "fphp" .fphpRaw ++
  replaceBBCodeParamsRaw "fphp" (.paramRaw .fphpParam) ++
  rawBBCode "google" .google ++
  replaceBBCodeParams "jumpto" .jumptoParam ++
  replaceBBCode "edit" (.plain .edit) ++
  replaceBBCode "ot" (.plain .ot) ++
  replaceBBCode "indent" (.plain .indent) ++
  replaceBBCodeParams "rule" .ruleParam

/-- The inline rule catalog in source registration order (lines 75-165; the
two block rules are modelled separately). Registration is pure appending of
the two case variants of each call. -/
def catalog : List Rule :=
  replaceBBCode "b" (.plain .bB) ++ catalogTail

/-- Modelled from the spec: step 4 of the inline matcher (section 4.3), the
search for the first occurrence of the literal stop token; returns the text
strictly before it and the text strictly after it, or `none` when the token
does not occur before the end of the text. -/
def splitFirst (pat : List Char) : List Char → Option (List Char × List Char)
  | [] => if pat.isPrefixOf ([] : List Char) then some ([], []) else none
  | c :: rest =>
    if pat.isPrefixOf (c :: rest) then some ([], (c :: rest).drop pat.length)
    else
      match splitFirst pat rest with
      | some (b, a) => some (c :: b, a)
      | none => none

/-- A run of literal characters flushed as one text leaf; an empty run yields
no node at all. -/
def textOf (l : List Char) : List Node :=
  if l = [] then [] else [Node.text (String.mk l)]

/-- Modelled from the spec: steps 6-7 of the inline matcher (section 4.3)
together with the synthetic emitter of `replaceBBCodeParamsRaw` (lines 47-52
of the source). `hook` is the inline re-entry hook `processInline`. A `plain`
rule has its span reprocessed by the engine; the raw shapes receive the span
unprocessed; the parameterized shapes first split the span with `execParam`
and decline (return `none`) when the pattern does not match. -/
def fireEmit (hook : List Char → List Node) (k : EKind) (span : List Char) : Option (List Node) :=
  match k with
  | .plain e => some (applyPlain e (hook span))
  | .raw e => some (applyRaw e (String.mk span))
  | .paramRaw e =>
    match execParam span with
    | some (p, c) => some (applyPRaw e (String.mk p) (String.mk c))
    | none => none
  | .paramRec e =>
    match execParam span with
    | some (p, c) => some (applyPRec e (String.mk p) (hook c))
    | none => none

/-- Modelled from the spec: one rule tried at the current position (section
4.3, steps 1, 4-7): the start token must literally begin the remaining text,
a stop token must follow, and the emitter must emit; the produced nodes and
the text after the stop token are returned. -/
def tryRule (hook : List Char → List Node) (r : Rule) (t : List Char) : Option (List Node × List Char) :=
  if r.start.isPrefixOf t then
    match splitFirst r.stop (t.drop r.start.length) with
    | some (span, rest) =>
      match fireEmit hook r.kind span with
      | some ns => some (ns, rest)
      | none => none
    | none => none
  else none

/-- Modelled from the spec: rules tried in registration order at one position;
the first rule that fires wins (section 4.2 and 4.3 step 1). -/
def tryRules (hook : List Char → List Node) : List Rule → List Char → Option (List Node × List Char)
  | [], _ => none
  | r :: rs, t =>
    match tryRule hook r t with
    | some x => some x
    | none => tryRules hook rs t

/-- Modelled from the spec: the left-to-right scan of the inline matcher
(section 4.3, steps 1 and 8). `acc` holds, reversed, the literal characters
passed over so far; when a rule fires they are flushed as one text leaf, the
emitted nodes are spliced in, and scanning resumes strictly after the consumed
span. The step budget `n` is spent one unit per step; every step consumes at
least one character, so a budget above the text length is never exhausted. -/
def scanA (hook : List Char → List Node) : Nat → List Char → List Char → List Node
  | 0, t, acc => textOf (acc.reverse ++ t)
  | n + 1, t, acc =>
    match t with
    | [] => textOf acc.reverse
    | c :: rest =>
      match tryRules hook catalog t with
      | some (ns, after) => textOf acc.reverse ++ ns ++ scanA hook n after []
      | none => scanA hook n rest (c :: acc)

/-- Modelled from the spec: the inline re-entry hook `processInline` (sections
4.3 and 6), one full scan of a text span against the registered inline rules.
The outer fuel bounds the nesting depth of recursive reprocessing; at depth
zero the text is left literal. -/
def processInline : Nat → List Char → List Node
  | 0, t => textOf t
  | f + 1, t => scanA (processInline f) (t.length + 1) t []

/-- Splitting of one accumulated chunk on internal line breaks: `bc.split(/\n/)`
at line 176 of the source. -/
def splitNl : List Char → List (List Char)
  | [] => [[]]
  | c :: rest =>
    if c = '\n' then [] :: splitNl rest
    else
      match splitNl rest with
      | h :: t => (c :: h) :: t
      | [] => [[c]]

/-- Rejoining of the accumulated lines: `blockContents.join("\n")` at line 113
of the source. -/
def joinNl : List (List Char) → List Char
  | [] => []
  | [l] => l
  | l :: rest => l ++ '\n' :: joinNl rest

/-- Transcription of the `[code]` block emitter, lines 112-114:
`['p', ['pre'].concat(blockContents.join("\n"))]`; `concat` with a string
appends it as a single entry, so the rejoined interior is the lone text child
of the `pre` element and is never reprocessed. -/
def codeEmitter (blockContents : List (List Char)) : Node :=
  .element "p" [] [.element "pre" [] [.text (String.mk (joinNl blockContents))]]

/-- A JavaScript array value is always truthy: the guard `if (li)` at line 180
of the source tests the array returned by `processInline` and therefore never
fails. -/
def jsTruthy (_ : List Node) : Bool := true

/-- Transcription of the `[list]` block emitter, lines 170-189: the base node
is `ol` with a `type` attribute when the start pattern captured a list-type
character, else `ul`; each accumulated chunk is split on internal line breaks,
each sub-line beginning with the literal `[*]` has its remainder reprocessed
through the inline re-entry hook and pushed as one `li`, and every other
sub-line is dropped. -/
def listEmitter (f : Nat) (blockContents : List (List Char)) (capture : Option Char) : Node :=
  let base : String × List (String × String) :=
    match capture with
    | some c => ("ol", [("type", String.mk [c])])
    | none => ("ul", [])
  let items : List Node :=
    blockContents.foldl
      (fun acc bc =>
        (splitNl bc).foldl
          (fun acc2 line =>
            if ("[*]".data).isPrefixOf line then
              let li := processInline f (line.drop 3)
              if jsTruthy li then acc2 ++ [Node.element "li" [] li] else acc2
            else acc2)
          acc)
      []
  .element base.1 base.2 items

/-- Case-insensitive comparison of two characters, for the `i` flag on the
block patterns. -/
def ciEq (a b : Char) : Bool := a.toLower == b.toLower

/-- Case-insensitive prefix test. -/
def ciPfx : List Char → List Char → Bool
  | [], _ => true
  | _ :: _, [] => false
  | a :: as, b :: bs => ciEq a b && ciPfx as bs

/-- Case-insensitive substring test, for the unanchored stop patterns
`/\[\/code\]/i` and `/\[\/list\]/i`. -/
def ciSub (pat : List Char) : List Char → Bool
  | [] => ciPfx pat []
  | c :: rest => ciPfx pat (c :: rest) || ciSub pat rest

/-- Start test of the `[code]` block rule `/(\[code\])([\s\S]*)/igm` against a
line: the literal token `[code]` occurs, case-insensitively, somewhere in it. -/
def codeStartB (line : List Char) : Bool := ciSub ("[code]".data) line

/-- A word character in the sense of `\w`. -/
def isWordChar (c : Char) : Bool := c.isAlphanum || c == '_'

/-- The tail of the `[list]` start pattern after the literal `[list`: an
optional `=`, an optional captured word character, then `]`, in the greedy
order the pattern tries them. -/
def listAfter : List Char → Option (Option Char)
  | ']' :: _ => some none
  | '=' :: ']' :: _ => some none
  | '=' :: w :: ']' :: _ => if isWordChar w then some (some w) else none
  | w :: ']' :: _ => if isWordChar w then some (some w) else none
  | _ => none

/-- Start test of the `[list]` block rule `/\[list=?(\w)?\]([\s\S]*)/igm`
against a line, yielding the captured list-type character when present. -/
def listStartB : List Char → Option (Option Char)
  | [] => none
  | c :: rest =>
    if ciPfx ("[list".data) (c :: rest) then
      match listAfter ((c :: rest).drop 5) with
      | some cap => some cap
      | none => listStartB rest
    else listStartB rest

/-- Modelled from the spec: accumulation of the interior lines of a block
(section 4.5, step 2): lines are buffered until one matches the stop pattern,
which is itself consumed but excluded; a missing stop closes the block at the
end of the input. -/
def splitAtStop (stop : List Char → Bool) : List (List Char) → List (List Char) × List (List Char)
  | [] => ([], [])
  | l :: rest =>
    if stop l then ([], rest)
    else
      match splitAtStop stop rest with
      | (b, a) => (l :: b, a)

/-- Modelled from the spec: the block matcher (section 4.5) over the two block
rules of the source, tried in registration order (`[code]` at line 108 before
`[list]` at line 167): a line matching a start pattern opens a block whose
interior lines go to the block emitter; any other line passes through. `f` is
the nesting budget handed to the inline re-entry hook; `n` bounds the number
of lines and is spent at least one line per step. -/
def blockScan (f : Nat) : Nat → List (List Char) → List Node
  | 0, _ => []
  | _, [] => []
  | n + 1, l :: rest =>
    if codeStartB l then
      match splitAtStop (fun x => ciSub ("[/code]".data) x) rest with
      | (buf, after) => codeEmitter buf :: blockScan f n after
    else
      match listStartB l with
      | some cap =>
        match splitAtStop (fun x => ciSub ("[/list]".data) x) rest with
        | (buf, after) => listEmitter f buf cap :: blockScan f n after
      | none => Node.text (String.mk l) :: blockScan f n rest

/-- Spec-side description of the list items: each accumulated chunk split on
line breaks, every sub-line beginning with `[*]` contributing exactly one `li`
whose children are the reprocessed remainder, every other sub-line dropped. -/
def listItemsSpec (f : Nat) (blockContents : List (List Char)) : List Node :=
  ((blockContents.map splitNl).flatten).filterMap
    (fun line =>
      if ("[*]".data).isPrefixOf line then
        some (Node.element "li" [] (processInline f (line.drop 3)))
      else none)

/-- Spec-side description of `contents contain "<img" case-insensitively`:
some decomposition exposes a literal `<` followed by the three letters. -/
def HasImgCI (s : List Char) : Prop :=
  ∃ pre a b d post, s = pre ++ '<' :: a :: b :: d :: post ∧
    a.toLower = 'i' ∧ b.toLower = 'm' ∧ d.toLower = 'g'

end BBCode


namespace BBCode

theorem findSplit_nil (acc : List Char) : findSplit acc [] = none := rfl

theorem findSplit_cons1 (acc : List Char) (c : Char) : findSplit acc [c] = none := by
  show (if isLineTerm c then none else none) = none
  exact ite_self none

theorem findSplit_cons2 (acc : List Char) (c q : Char) :
    findSplit acc [c, q] =
      if isLineTerm c then none
      else if q == ']' then some ((c :: acc).reverse, []) else none := rfl

theorem findSplit_cons3 (acc : List Char) (c q d : Char) (r : List Char) :
    findSplit acc (c :: q :: d :: r) =
      if isLineTerm c then none
      else if isQuote q && d == ']' && noLT r then some ((c :: acc).reverse, r)
      else if q == ']' && noLT (d :: r) then some ((c :: acc).reverse, d :: r)
      else findSplit (c :: acc) (q :: d :: r) := rfl

theorem findSplit_none_of_not_mem :
    ∀ (l acc : List Char), ']' ∉ l → findSplit acc l = none := by
  intro l
  induction l with
  | nil => intro acc _; rfl
  | cons c rest ih =>
    intro acc h
    have hrest : ']' ∉ rest := fun hm => h (List.mem_cons_of_mem _ hm)
    match rest, ih, hrest with
    | [], _, _ => exact findSplit_cons1 acc c
    | [q], _, hr =>
      have hq : q ≠ ']' := by
        intro e; exact hr (by simp [e])
      rw [findSplit_cons2]
      simp [hq]
    | q :: d :: r, ih, hr =>
      have hq : q ≠ ']' := fun e => hr (by simp [e])
      have hd : d ≠ ']' := fun e => hr (by simp [e])
      rw [findSplit_cons3]
      simp [hq, hd, ih (c :: acc) hr]

theorem execParam_none_of_not_mem (s : List Char) (h : ']' ∉ s) : execParam s = none := by
  match s with
  | [] => rfl
  | c :: rest =>
    have hrest : ']' ∉ rest := fun hm => h (List.mem_cons_of_mem _ hm)
    simp only [execParam]
    split
    · rw [findSplit_none_of_not_mem rest [] hrest, findSplit_none_of_not_mem _ [] h]
    · exact findSplit_none_of_not_mem _ [] h

end BBCode

namespace BBCode

theorem noLT_of_forall (l : List Char) (h : ∀ x ∈ l, isLineTerm x = false) :
    noLT l = true := by
  simp only [noLT, List.all_eq_true]
  intro c hc
  simp [h c hc]

theorem findSplit_plain_end :
    ∀ (p acc c : List Char), p ≠ [] → ']' ∉ p → (∀ x ∈ p, isLineTerm x = false) →
      (∀ x ∈ p, isQuote x = false) → (∀ x ∈ c, isLineTerm x = false) →
      findSplit acc (p ++ ']' :: c) = some (acc.reverse ++ p, c) := by
  intro p
  induction p with
  | nil => intro acc c hne; exact absurd rfl hne
  | cons a p ih =>
    intro acc c _ hrb hnl hq hc
    have ha : isLineTerm a = false := hnl a (by simp)
    match p, ih with
    | [], _ =>
      match c with
      | [] =>
        show findSplit acc [a, ']'] = some (acc.reverse ++ [a], [])
        rw [findSplit_cons2]
        simp [ha]
      | d :: r =>
        show findSplit acc (a :: ']' :: d :: r) = some (acc.reverse ++ [a], d :: r)
        rw [findSplit_cons3]
        simp [ha, isQuote, noLT_of_forall _ hc]
    | b :: p', ih =>
      have hbq : isQuote b = false := hq b (by simp)
      have hbr : b ≠ ']' := fun e => hrb (by simp [e])
      obtain ⟨d, r, hdr⟩ : ∃ d r, p' ++ ']' :: c = d :: r := by
        cases p' <;> exact ⟨_, _, rfl⟩
      have step : findSplit acc ((a :: b :: p') ++ ']' :: c) =
          findSplit (a :: acc) ((b :: p') ++ ']' :: c) := by
        show findSplit acc (a :: b :: (p' ++ ']' :: c)) =
          findSplit (a :: acc) (b :: (p' ++ ']' :: c))
        rw [hdr, findSplit_cons3]
        simp [ha, hbq, hbr]
      rw [step, ih (a :: acc) c (by simp) (fun hm => hrb (by simp [hm]))
        (fun x hx => hnl x (by simp [hx])) (fun x hx => hq x (by simp [hx])) hc]
      simp

theorem findSplit_quoted_end :
    ∀ (p acc : List Char) (q : Char) (c : List Char), p ≠ [] → ']' ∉ p →
      (∀ x ∈ p, isLineTerm x = false) →
      (∀ x ∈ p, isQuote x = false) → isQuote q = true →
      (∀ x ∈ c, isLineTerm x = false) →
      findSplit acc (p ++ q :: ']' :: c) = some (acc.reverse ++ p, c) := by
  intro p
  induction p with
  | nil => intro acc q c hne; exact absurd rfl hne
  | cons a p ih =>
    intro acc q c _ hrb hnl hqf hq hc
    have ha : isLineTerm a = false := hnl a (by simp)
    match p, ih with
    | [], _ =>
      show findSplit acc (a :: q :: ']' :: c) = some (acc.reverse ++ [a], c)
      rw [findSplit_cons3]
      simp [ha, hq, noLT_of_forall _ hc]
    | b :: p', ih =>
      have hbq : isQuote b = false := hqf b (by simp)
      have hbr : b ≠ ']' := fun e => hrb (by simp [e])
      obtain ⟨d, r, hdr⟩ : ∃ d r, p' ++ q :: ']' :: c = d :: r := by
        cases p' <;> exact ⟨_, _, rfl⟩
      have step : findSplit acc ((a :: b :: p') ++ q :: ']' :: c) =
          findSplit (a :: acc) ((b :: p') ++ q :: ']' :: c) := by
        show findSplit acc (a :: b :: (p' ++ q :: ']' :: c)) =
          findSplit (a :: acc) (b :: (p' ++ q :: ']' :: c))
        rw [hdr, findSplit_cons3]
        simp [ha, hbq, hbr]
      rw [step, ih (a :: acc) q c (by simp) (fun hm => hrb (by simp [hm]))
        (fun x hx => hnl x (by simp [hx])) (fun x hx => hqf x (by simp [hx])) hq hc]
      simp

theorem execParam_plain_split (p c : List Char) (hne : p ≠ []) (hrb : ']' ∉ p)
    (hnl : ∀ x ∈ p, isLineTerm x = false) (hqf : ∀ x ∈ p, isQuote x = false)
    (hc : ∀ x ∈ c, isLineTerm x = false) :
    execParam (p ++ ']' :: c) = some (p, c) := by
  match p, hne with
  | a :: p', _ =>
    have ha : isQuote a = false := hqf a (by simp)
    show execParam (a :: (p' ++ ']' :: c)) = some (a :: p', c)
    simp only [execParam, ha, Bool.false_eq_true, if_false]
    have := findSplit_plain_end (a :: p') [] c (by simp) hrb hnl hqf hc
    rw [show (a :: p') ++ ']' :: c = a :: (p' ++ ']' :: c) from rfl] at this
    rw [this]
    simp

theorem execParam_quoted_split (q qq : Char) (p c : List Char) (hq : isQuote q = true)
    (hqq : isQuote qq = true) (hne : p ≠ []) (hrb : ']' ∉ p)
    (hnl : ∀ x ∈ p, isLineTerm x = false) (hqf : ∀ x ∈ p, isQuote x = false)
    (hc : ∀ x ∈ c, isLineTerm x = false) :
    execParam (q :: (p ++ qq :: ']' :: c)) = some (p, c) := by
  simp only [execParam, hq, if_true]
  rw [findSplit_quoted_end p [] qq c hne hrb hnl hqf hqq hc]
  simp

end BBCode

namespace BBCode

theorem isPfx_cons (a b : Char) (as bs : List Char) :
    (a :: as).isPrefixOf (b :: bs) = (a == b && as.isPrefixOf bs) := rfl

theorem isPfx_nil (bs : List Char) : ([] : List Char).isPrefixOf bs = true := by
  cases bs <;> rfl

theorem isPfx_self_append : ∀ (p r : List Char), p.isPrefixOf (p ++ r) = true := by
  intro p r
  induction p with
  | nil => exact isPfx_nil r
  | cons a as ih => rw [List.cons_append, isPfx_cons, ih]; simp

theorem splitFirst_cons (pat : List Char) (c : Char) (rest : List Char) :
    splitFirst pat (c :: rest) =
      if pat.isPrefixOf (c :: rest) then some ([], (c :: rest).drop pat.length)
      else
        match splitFirst pat rest with
        | some (b, a) => some (c :: b, a)
        | none => none := rfl

theorem drop_len_append (l1 l2 : List Char) : (l1 ++ l2).drop l1.length = l2 := by
  induction l1 with
  | nil => rfl
  | cons a as ih => simp

theorem catalog_starts : ∀ r ∈ catalog, r.start.head? = some '[' := by decide

theorem tryRules_none_of_head (hook : List Char → List Node) :
    ∀ (rules : List Rule), (∀ r ∈ rules, r.start.head? = some '[') →
      ∀ (c : Char) (rest : List Char), c ≠ '[' →
        tryRules hook rules (c :: rest) = none := by
  intro rules
  induction rules with
  | nil => intro _ c rest _; rfl
  | cons r rs ih =>
    intro h c rest hc
    obtain ⟨s', hs⟩ : ∃ s', r.start = '[' :: s' := by
      have := h r (by simp)
      match hstart : r.start with
      | [] => rw [hstart] at this; simp at this
      | a :: as =>
        rw [hstart] at this
        simp at this
        exact ⟨as, by rw [this]⟩
    have hfalse : r.start.isPrefixOf (c :: rest) = false := by
      rw [hs, isPfx_cons]
      have : ('[' == c) = false := beq_eq_false_iff_ne.mpr (fun e => hc e.symm)
      simp [this]
    simp only [tryRules, tryRule, hfalse, Bool.false_eq_true, if_false]
    exact ih (fun x hx => h x (by simp [hx])) c rest hc

theorem scanA_nil (hook : List Char → List Node) (n : Nat) (acc : List Char) :
    scanA hook n [] acc = textOf acc.reverse := by
  cases n with
  | zero => simp [scanA]
  | succ m => rfl

theorem scanA_literal (hook : List Char → List Node) :
    ∀ (x : List Char) (n : Nat) (acc : List Char), '[' ∉ x → x.length < n →
      scanA hook n x acc = textOf (acc.reverse ++ x) := by
  intro x
  induction x with
  | nil =>
    intro n acc _ _
    rw [scanA_nil]
    simp
  | cons c rest ih =>
    intro n acc hx hn
    match n, hn with
    | m + 1, hn =>
      have hc : c ≠ '[' := fun e => hx (by simp [e])
      have hnone := tryRules_none_of_head hook catalog catalog_starts c rest hc
      show (match tryRules hook catalog (c :: rest) with
        | some (ns, after) => textOf acc.reverse ++ ns ++ scanA hook m after []
        | none => scanA hook m rest (c :: acc)) = textOf (acc.reverse ++ c :: rest)
      rw [hnone]
      rw [ih m (c :: acc) (fun hm => hx (by simp [hm])) (by simpa using hn)]
      simp

theorem processInline_literal (f : Nat) (x : List Char) (hx : '[' ∉ x) :
    processInline f x = textOf x := by
  cases f with
  | zero => rfl
  | succ g =>
    show scanA (processInline g) (x.length + 1) x [] = textOf x
    rw [scanA_literal (processInline g) x (x.length + 1) [] hx (by omega)]
    simp

theorem splitFirst_boundary (pat : List Char) (hpat : pat.head? = some '[') :
    ∀ (x r : List Char), '[' ∉ x → splitFirst pat (x ++ (pat ++ r)) = some (x, r) := by
  intro x
  induction x with
  | nil =>
    intro r _
    show splitFirst pat (pat ++ r) = some ([], r)
    match pat, hpat with
    | p0 :: pt, _ =>
      show splitFirst (p0 :: pt) (p0 :: (pt ++ r)) = some ([], r)
      have hpfx : (p0 :: pt).isPrefixOf (p0 :: (pt ++ r)) = true :=
        isPfx_self_append (p0 :: pt) r
      rw [splitFirst_cons, if_pos hpfx]
      show some ([], (pt ++ r).drop pt.length) = some ([], r)
      rw [drop_len_append]
  | cons c x' ih =>
    intro r hx
    have hc : c ≠ '[' := fun e => hx (by simp [e])
    show splitFirst pat (c :: (x' ++ (pat ++ r))) = some (c :: x', r)
    have hfalse : pat.isPrefixOf (c :: (x' ++ (pat ++ r))) = false := by
      match pat, hpat with
      | p0 :: pt, hp =>
        have hp0 : p0 = '[' := by simpa using hp
        rw [isPfx_cons]
        have : (p0 == c) = false := beq_eq_false_iff_ne.mpr (fun e => hc (e.symm.trans hp0))
        simp [this]
    rw [splitFirst_cons, if_neg (by simp [hfalse])]
    rw [ih r (fun hm => hx (by simp [hm]))]

end BBCode

namespace BBCode

theorem scanA_fire (hook : List Char → List Node) (n : Nat) (t acc : List Char)
    (ns : List Node) (after : List Char) (c : Char) (rest : List Char) (ht : t = c :: rest)
    (h : tryRules hook catalog t = some (ns, after)) :
    scanA hook (n + 1) t acc = textOf acc.reverse ++ ns ++ scanA hook n after [] := by
  subst ht
  show (match tryRules hook catalog (c :: rest) with
    | some (ns, after) => textOf acc.reverse ++ ns ++ scanA hook n after []
    | none => scanA hook n rest (c :: acc)) = _
  rw [h]

theorem tryRules_upperB (hook : List Char → List Node) (x : List Char) (hx : '[' ∉ x) :
    tryRules hook catalog ('[' :: 'B' :: ']' :: (x ++ "[/B]".data)) =
      some ([Node.element "span" [("class", "bbcode-b")] (hook x)], []) := by
  have hcat : catalog =
      ⟨['[', 'b', ']'], ['[', '/', 'b', ']'], .plain .bB⟩ ::
      ⟨['[', 'B', ']'], ['[', '/', 'B', ']'], .plain .bB⟩ :: catalogTail := rfl
  have h2 : tryRule hook ⟨['[', 'B', ']'], ['[', '/', 'B', ']'], .plain .bB⟩
      ('[' :: 'B' :: ']' :: (x ++ "[/B]".data)) =
      some ([Node.element "span" [("class", "bbcode-b")] (hook x)], []) := by
    have htrue : (['[', 'B', ']'] : List Char).isPrefixOf
        ('[' :: 'B' :: ']' :: (x ++ "[/B]".data)) = true := by
      rw [isPfx_cons, isPfx_cons, isPfx_cons, isPfx_nil]
      simp
    simp only [tryRule, htrue, if_true]
    have hdrop : ('[' :: 'B' :: ']' :: (x ++ "[/B]".data)).drop
        (['[', 'B', ']'] : List Char).length = x ++ "[/B]".data := rfl
    rw [hdrop]
    have hsf : splitFirst (['[', '/', 'B', ']'] : List Char) (x ++ "[/B]".data) =
        some (x, []) := by
      have := splitFirst_boundary (['[', '/', 'B', ']'] : List Char) (by rfl) x [] hx
      rw [List.append_nil] at this
      exact this
    rw [hsf]
    rfl
  rw [hcat]
  show (match tryRule hook ⟨['[', 'B', ']'], ['[', '/', 'B', ']'], .plain .bB⟩
      ('[' :: 'B' :: ']' :: (x ++ "[/B]".data)) with
    | some v => some v
    | none => tryRules hook catalogTail ('[' :: 'B' :: ']' :: (x ++ "[/B]".data))) = _
  rw [h2]

theorem tryRules_lowerB (hook : List Char → List Node) (x : List Char) (hx : '[' ∉ x) :
    tryRules hook catalog ('[' :: 'b' :: ']' :: (x ++ "[/b]".data)) =
      some ([Node.element "span" [("class", "bbcode-b")] (hook x)], []) := by
  have hcat : catalog =
      ⟨['[', 'b', ']'], ['[', '/', 'b', ']'], .plain .bB⟩ ::
      ⟨['[', 'B', ']'], ['[', '/', 'B', ']'], .plain .bB⟩ :: catalogTail := rfl
  have h1 : tryRule hook ⟨['[', 'b', ']'], ['[', '/', 'b', ']'], .plain .bB⟩
      ('[' :: 'b' :: ']' :: (x ++ "[/b]".data)) =
      some ([Node.element "span" [("class", "bbcode-b")] (hook x)], []) := by
    have htrue : (['[', 'b', ']'] : List Char).isPrefixOf
        ('[' :: 'b' :: ']' :: (x ++ "[/b]".data)) = true := by
      rw [isPfx_cons, isPfx_cons, isPfx_cons, isPfx_nil]
      simp
    simp only [tryRule, htrue, if_true]
    have hdrop : ('[' :: 'b' :: ']' :: (x ++ "[/b]".data)).drop
        (['[', 'b', ']'] : List Char).length = x ++ "[/b]".data := rfl
    rw [hdrop]
    have hsf : splitFirst (['[', '/', 'b', ']'] : List Char) (x ++ "[/b]".data) =
        some (x, []) := by
      have := splitFirst_boundary (['[', '/', 'b', ']'] : List Char) (by rfl) x [] hx
      rw [List.append_nil] at this
      exact this
    rw [hsf]
    rfl
  rw [hcat]
  show (match tryRule hook ⟨['[', 'b', ']'], ['[', '/', 'b', ']'], .plain .bB⟩
      ('[' :: 'b' :: ']' :: (x ++ "[/b]".data)) with
    | some v => some v
    | none =>
      tryRules hook
        (⟨['[', 'B', ']'], ['[', '/', 'B', ']'], .plain .bB⟩ :: catalogTail)
        ('[' :: 'b' :: ']' :: (x ++ "[/b]".data))) = _
  rw [h1]

theorem processInline_upperB (f : Nat) (x : List Char) (hx : '[' ∉ x) :
    processInline (f + 1) ('[' :: 'B' :: ']' :: (x ++ "[/B]".data)) =
      [Node.element "span" [("class", "bbcode-b")] (textOf x)] := by
  show scanA (processInline f) (('[' :: 'B' :: ']' :: (x ++ "[/B]".data)).length + 1)
      ('[' :: 'B' :: ']' :: (x ++ "[/B]".data)) [] = _
  rw [scanA_fire (processInline f) _ _ [] _ [] '[' ('B' :: ']' :: (x ++ "[/B]".data)) rfl
    (tryRules_upperB (processInline f) x hx)]
  rw [scanA_nil, processInline_literal f x hx]
  simp [textOf]

theorem processInline_lowerB (f : Nat) (x : List Char) (hx : '[' ∉ x) :
    processInline (f + 1) ('[' :: 'b' :: ']' :: (x ++ "[/b]".data)) =
      [Node.element "span" [("class", "bbcode-b")] (textOf x)] := by
  show scanA (processInline f) (('[' :: 'b' :: ']' :: (x ++ "[/b]".data)).length + 1)
      ('[' :: 'b' :: ']' :: (x ++ "[/b]".data)) [] = _
  rw [scanA_fire (processInline f) _ _ [] _ [] '[' ('b' :: ']' :: (x ++ "[/b]".data)) rfl
    (tryRules_lowerB (processInline f) x hx)]
  rw [scanA_nil, processInline_literal f x hx]
  simp [textOf]

end BBCode


namespace BBCode

theorem liFold_inner (f : Nat) :
    ∀ (lines : List (List Char)) (acc : List Node),
      lines.foldl
        (fun acc2 line =>
          if ("[*]".data).isPrefixOf line then
            acc2 ++ [Node.element "li" [] (processInline f (line.drop 3))]
          else acc2) acc =
      acc ++ lines.filterMap
        (fun line =>
          if ("[*]".data).isPrefixOf line then
            some (Node.element "li" [] (processInline f (line.drop 3)))
          else none) := by
  intro lines
  induction lines with
  | nil => intro acc; simp
  | cons l ls ih =>
    intro acc
    simp only [List.foldl_cons, List.filterMap_cons]
    by_cases hl : ("[*]".data).isPrefixOf l = true
    · rw [if_pos hl, if_pos hl, ih (acc ++ [Node.element "li" [] (processInline f (l.drop 3))])]
      simp
    · rw [if_neg hl, if_neg hl]
      exact ih acc

theorem liFold_outer (f : Nat) :
    ∀ (bcs : List (List Char)) (acc : List Node),
      bcs.foldl
        (fun acc bc =>
          (splitNl bc).foldl
            (fun acc2 line =>
              if ("[*]".data).isPrefixOf line then
                acc2 ++ [Node.element "li" [] (processInline f (line.drop 3))]
              else acc2) acc) acc =
      acc ++ ((bcs.map splitNl).flatten).filterMap
        (fun line =>
          if ("[*]".data).isPrefixOf line then
            some (Node.element "li" [] (processInline f (line.drop 3)))
          else none) := by
  intro bcs
  induction bcs with
  | nil => intro acc; simp
  | cons bc bcs ih =>
    intro acc
    simp only [List.foldl_cons, ih, liFold_inner f (splitNl bc) acc, List.map_cons,
      List.flatten_cons, List.filterMap_append, List.append_assoc]

theorem listEmitter_none_eq (f : Nat) (bcs : List (List Char)) :
    listEmitter f bcs none = Node.element "ul" [] (listItemsSpec f bcs) := by
  show Node.element "ul" []
      (bcs.foldl
        (fun acc bc =>
          (splitNl bc).foldl
            (fun acc2 line =>
              if ("[*]".data).isPrefixOf line then
                acc2 ++ [Node.element "li" [] (processInline f (line.drop 3))]
              else acc2) acc) []) =
    Node.element "ul" [] (listItemsSpec f bcs)
  rw [liFold_outer f bcs []]
  rfl

theorem listEmitter_some_eq (f : Nat) (bcs : List (List Char)) (c : Char) :
    listEmitter f bcs (some c) =
      Node.element "ol" [("type", String.mk [c])] (listItemsSpec f bcs) := by
  show Node.element "ol" [("type", String.mk [c])]
      (bcs.foldl
        (fun acc bc =>
          (splitNl bc).foldl
            (fun acc2 line =>
              if ("[*]".data).isPrefixOf line then
                acc2 ++ [Node.element "li" [] (processInline f (line.drop 3))]
              else acc2) acc) []) =
    Node.element "ol" [("type", String.mk [c])] (listItemsSpec f bcs)
  rw [liFold_outer f bcs []]
  rfl

theorem hasImgCI_cons (c : Char) (rest : List Char) :
    hasImgCI (c :: rest) =
      ((c == '<' &&
        (match rest with
         | a :: b :: d :: _ => a.toLower == 'i' && b.toLower == 'm' && d.toLower == 'g'
         | _ => false)) || hasImgCI rest) := rfl

theorem hasImgCI_iff (s : List Char) : hasImgCI s = true ↔ HasImgCI s := by
  induction s with
  | nil =>
    constructor
    · intro h; exact absurd h (by simp [hasImgCI])
    · rintro ⟨pre, a, b, d, post, h, -, -, -⟩
      have := List.append_eq_nil.mp h.symm
      exact absurd this.2 (by simp)
  | cons c rest ih =>
    constructor
    · intro h
      rw [hasImgCI_cons, Bool.or_eq_true] at h
      rcases h with h' | h'
      · have hparts := (Bool.and_eq_true _ _).mp h'
        have hc : c = '<' := beq_iff_eq.mp hparts.1
        have hin2 := hparts.2
        have hshape : ∃ a b d rest', rest = a :: b :: d :: rest' ∧
            a.toLower = 'i' ∧ b.toLower = 'm' ∧ d.toLower = 'g' := by
          cases rest with
          | nil => simp at hin2
          | cons a r1 =>
            cases r1 with
            | nil => simp at hin2
            | cons b r2 =>
              cases r2 with
              | nil => simp at hin2
              | cons d r3 =>
                have hm : (a.toLower = 'i' ∧ b.toLower = 'm') ∧ d.toLower = 'g' := by
                  simpa [Bool.and_eq_true] using hin2
                exact ⟨a, b, d, r3, rfl, hm.1.1, hm.1.2, hm.2⟩
        obtain ⟨a, b, d, rest', hr, hi, hm, hg⟩ := hshape
        exact ⟨[], a, b, d, rest', by rw [hc, hr]; rfl, hi, hm, hg⟩
      · obtain ⟨pre, a, b, d, post, hEq, hi, hm, hg⟩ := ih.mp h'
        exact ⟨c :: pre, a, b, d, post, by rw [hEq]; rfl, hi, hm, hg⟩
    · rintro ⟨pre, a, b, d, post, hEq, hi, hm, hg⟩
      rw [hasImgCI_cons, Bool.or_eq_true]
      cases pre with
      | nil =>
        left
        have hc : c = '<' := by injection hEq
        have hrest : rest = a :: b :: d :: post := by injection hEq with _ h2
        subst hrest
        simp [hc, hi, hm, hg]
      | cons p pre' =>
        right
        have hrest : rest = pre' ++ '<' :: a :: b :: d :: post := by injection hEq with _ h2
        exact ih.mpr ⟨pre', a, b, d, post, hrest, hi, hm, hg⟩

end BBCode

namespace BBCode

/-- C1: the emitter registered for the `b` tag returns one `span` element with
class attribute `bbcode-b` whose children are exactly the processed contents
in order, and the input `"[b]x[/b]"` yields exactly
`Element{tag: "span", attributes: {class: "bbcode-b"}, children: [Text("x")]}`. -/
theorem claim_c1_bold_emitter :
    (∀ ns : List Node, applyPlain .bB ns = [Node.element "span" [("class", "bbcode-b")] ns]) ∧
    processInline 10 ("[b]x[/b]".data) =
      [Node.element "span" [("class", "bbcode-b")] [Node.text "x"]] :=
  ⟨fun _ => rfl, rfl⟩

/-- C2, counterexample: the synthetic emitter does not always split the
captured span at the first `]`. On the span `"]x]y"` the first `]` is at
position 0, so the claim predicts `param = ""` and `contents = "x]y"`;
the lazy body of the pattern must be non-empty, and the code instead splits
at the second `]`, giving `param = "]x"` and `contents = "y"`. On the span
`"\"]y"` the code keeps the quote in the param rather than stripping it. -/
theorem claim_c2_counterexample :
    execParam ("]x]y".data) = some ("]x".data, "y".data) ∧
    some ("]x".data, "y".data) ≠ some (([] : List Char), "x]y".data) ∧
    execParam ("\"]y".data) = some ("\"".data, "y".data) :=
  ⟨rfl, by decide, rfl⟩

/-- C2, amended: for every captured span of the form `p ++ "]" ++ c` whose
prefix `p` is non-empty and free of `]`, quotes and line terminators, and
whose remainder `c` is free of line terminators, the synthetic emitter yields
`param = p` and `contents = c`; when the prefix is additionally wrapped in one
layer of quote characters, they are stripped; and
`"[url=http://example.com]click[/url]"` yields `Element{tag:"a",
attributes:{href:"http://example.com", "data-bbcode":"true"},
children:[Text("click")]}`. -/
theorem claim_c2_param_split :
    (∀ p c : List Char, p ≠ [] → ']' ∉ p → (∀ x ∈ p, isLineTerm x = false) →
      (∀ x ∈ p, isQuote x = false) → (∀ x ∈ c, isLineTerm x = false) →
      execParam (p ++ ']' :: c) = some (p, c)) ∧
    (∀ (q qq : Char) (p c : List Char), isQuote q = true → isQuote qq = true → p ≠ [] →
      ']' ∉ p → (∀ x ∈ p, isLineTerm x = false) → (∀ x ∈ p, isQuote x = false) →
      (∀ x ∈ c, isLineTerm x = false) →
      execParam (q :: (p ++ qq :: ']' :: c)) = some (p, c)) ∧
    processInline 10 ("[url=http://example.com]click[/url]".data) =
      [Node.element "a" [("href", "http://example.com"), ("data-bbcode", "true")]
        [Node.text "click"]] :=
  ⟨execParam_plain_split, execParam_quoted_split, rfl⟩

theorem claim_c2_witness :
    execParam ("p]c".data) = some ("p".data, "c".data) ∧
    execParam ("\"p\"]c".data) = some ("p".data, "c".data) :=
  ⟨claim_c2_param_split.1 "p".data "c".data (by decide) (by decide) (by decide)
      (by decide) (by decide),
   claim_c2_param_split.2.1 '"' '"' "p".data "c".data (by decide) (by decide) (by decide)
      (by decide) (by decide) (by decide) (by decide)⟩

/-- C3, counterexample: case-insensitivity does not hold for every inner text.
With `x = "y[/b]z"` the lowercase input closes at the inner `[/b]`, giving two
output nodes, while the uppercase input closes at the final `[/B]`, giving
one; so the two trees differ. -/
theorem claim_c3_counterexample :
    processInline 6 ("[B]y[/b]z[/B]".data) ≠ processInline 6 ("[b]y[/b]z[/b]".data) := by
  intro h
  have h1 : (processInline 6 ("[B]y[/b]z[/B]".data)).length = 1 := rfl
  have h2 : (processInline 6 ("[b]y[/b]z[/b]".data)).length = 2 := rfl
  rw [h] at h1
  exact absurd (h1.symm.trans h2) (by decide)

/-- C3, amended: `replaceBBCode` registers exactly two inline rules, one with
the lowercase spelling `"[tag]"`/`"[/tag]"` of the tokens and one with the
uppercase spelling, both with the same emitter; and for every inner text `x`
containing no `[` character (hence no start or stop token), `"[B]x[/B]"`
yields the same tree as `"[b]x[/b]"`. -/
theorem claim_c3_case_variants :
    (∀ (tag : String) (k : EKind), ∃ r1 r2 : Rule, replaceBBCode tag k = [r1, r2] ∧
      r1.kind = k ∧ r2.kind = k ∧
      r1.start = '[' :: tag.data ++ [']'] ∧ r1.stop = '[' :: '/' :: tag.data ++ [']'] ∧
      r2.start = '[' :: upper tag.data ++ [']'] ∧
      r2.stop = '[' :: '/' :: upper tag.data ++ [']']) ∧
    (∀ (f : Nat) (x : List Char), '[' ∉ x →
      processInline (f + 1) ('[' :: 'B' :: ']' :: (x ++ "[/B]".data)) =
        processInline (f + 1) ('[' :: 'b' :: ']' :: (x ++ "[/b]".data))) :=
  ⟨fun tag k => ⟨_, _, rfl, rfl, rfl, rfl, rfl, rfl, rfl⟩,
   fun f x hx => by rw [processInline_upperB f x hx, processInline_lowerB f x hx]⟩

theorem claim_c3_witness :
    processInline 4 ("[B]x[/B]".data) = processInline 4 ("[b]x[/b]".data) :=
  claim_c3_case_variants.2 3 "x".data (by decide)

/-- C4, counterexample: the emitter does not test the reprocessed remainder
for emptiness. The inline hook returns an empty node list for the empty
remainder of the sub-line `"[*]"`, yet one (childless) `li` is still appended,
because the JavaScript guard `if (li)` tests an array, which is always truthy. -/
theorem claim_c4_counterexample :
    processInline 5 ([] : List Char) = [] ∧
    listEmitter 5 ["[*]".data] none = Node.element "ul" [] [Node.element "li" [] []] :=
  ⟨rfl, rfl⟩

/-- C4, amended: each accumulated chunk is split on internal line breaks; for
every sub-line beginning with `[*]`, the remainder after the 3-character
marker is passed through the inline re-entry hook and one `li` element with
those children is appended unconditionally (the emptiness of the result is
never tested, an array being always truthy); every other sub-line is dropped.
The lines `["[list]", "[*]one", "[*]two", "[/list]"]` yield a `ul` with
exactly the two `li` children `Text("one")` and `Text("two")`. -/
theorem claim_c4_list_items :
    (∀ (f : Nat) (bcs : List (List Char)),
      listEmitter f bcs none = Node.element "ul" [] (listItemsSpec f bcs)) ∧
    (∀ (f : Nat) (bcs : List (List Char)) (c : Char),
      listEmitter f bcs (some c) =
        Node.element "ol" [("type", String.mk [c])] (listItemsSpec f bcs)) ∧
    blockScan 6 10 ["[list]".data, "[*]one".data, "[*]two".data, "[/list]".data] =
      [Node.element "ul" []
        [Node.element "li" [] [Node.text "one"], Node.element "li" [] [Node.text "two"]]] :=
  ⟨listEmitter_none_eq, listEmitter_some_eq, rfl⟩

/-- C5: when the parameter pattern fails on the captured span (in particular
whenever the span holds no `]` at all), the synthetic emitter returns no
emission, the rule does not fire, and the matched text passes through
literally: `"[url=x[/url]"` comes out as the unchanged literal text. -/
theorem claim_c5_param_decline :
    (∀ s : List Char, ']' ∉ s → execParam s = none) ∧
    (∀ (hook : List Char → List Node) (e : PRecE) (s : List Char), execParam s = none →
      fireEmit hook (.paramRec e) s = none) ∧
    processInline 10 ("[url=x[/url]".data) = [Node.text "[url=x[/url]"] :=
  ⟨execParam_none_of_not_mem, fun hook e s h => by simp only [fireEmit, h], rfl⟩

theorem claim_c5_witness :
    execParam ("xy".data) = none ∧
    fireEmit (fun _ => []) (.paramRec .urlParam) ("xy".data) = none :=
  ⟨claim_c5_param_decline.1 "xy".data (by decide),
   claim_c5_param_decline.2.1 (fun _ => []) .urlParam "xy".data
     (claim_c5_param_decline.1 "xy".data (by decide))⟩

/-- C6: registration is purely additive — the catalog holds 64 rules,
including both `size` registrations, the first (span emitter) at index 26 and
the second (font emitter) at index 30; a firing rule earlier in the list
always wins; and `"[size=7]x[/size]"` is handled by the first registration,
yielding a `span` with class `bbcode-size-7` and not a `font` element. -/
theorem claim_c6_first_match :
    catalog.length = 64 ∧
    catalog[26]? = some ⟨"[size=".data, "[/size]".data, .paramRec .sizeFirst⟩ ∧
    catalog[30]? = some ⟨"[size=".data, "[/size]".data, .paramRec .sizeSecond⟩ ∧
    (∀ (hook : List Char → List Node) (r : Rule) (rs : List Rule) (t : List Char)
      (x : List Node × List Char),
      tryRule hook r t = some x → tryRules hook (r :: rs) t = some x) ∧
    processInline 10 ("[size=7]x[/size]".data) =
      [Node.element "span" [("class", "bbcode-size-7")] [Node.text "x"]] := by
  refine ⟨rfl, rfl, rfl, ?_, rfl⟩
  intro hook r rs t x h
  simp only [tryRules, h]

theorem claim_c6_witness :
    tryRules (processInline 3)
      (⟨"[size=".data, "[/size]".data, .paramRec .sizeFirst⟩ :: [])
      ("[size=7]x[/size]".data) =
      some ([Node.element "span" [("class", "bbcode-size-7")] [Node.text "x"]], []) :=
  claim_c6_first_match.2.2.2.1 (processInline 3) _ [] _ _ rfl

/-- C7: a paramRec (recursive) rule feeds the contents part of a successful
split through the inline re-entry hook before its user emitter runs; a raw
rule such as `noparse` hands the span to its emitter unprocessed, so
`"[noparse][b]x[/b][/noparse]"` yields the literal inner text `"[b]x[/b]"`
and not a nested span. -/
theorem claim_c7_raw_vs_recursive :
    (∀ (hook : List Char → List Node) (e : PRecE) (s p c : List Char),
      execParam s = some (p, c) →
      fireEmit hook (.paramRec e) s = some (applyPRec e (String.mk p) (hook c))) ∧
    (∀ (hook : List Char → List Node) (s : List Char),
      fireEmit hook (.raw .noparse) s = some [Node.text (String.mk s)]) ∧
    processInline 10 ("[noparse][b]x[/b][/noparse]".data) = [Node.text "[b]x[/b]"] := by
  refine ⟨?_, fun hook s => rfl, rfl⟩
  intro hook e s p c h
  simp only [fireEmit, h]

theorem claim_c7_witness :
    fireEmit (fun _ => []) (.paramRec .urlParam) ("p]c".data) =
      some [Node.element "a" [("href", "p"), ("data-bbcode", "true")] []] :=
  claim_c7_raw_vs_recursive.1 (fun _ => []) .urlParam "p]c".data "p".data "c".data rfl

/-- C8: when the base-10 integer parse of the size parameter fails or yields
0, the first-registered size emitter still fires with the value silently
replaced by 1: `"[size=huge]x[/size]"` yields a span of class
`bbcode-size-1`. -/
theorem claim_c8_size_fallback :
    (∀ (p : String) (ns : List Node), jsParseInt p = none ∨ jsParseInt p = some 0 →
      applyPRec .sizeFirst p ns = [Node.element "span" [("class", "bbcode-size-1")] ns]) ∧
    processInline 10 ("[size=huge]x[/size]".data) =
      [Node.element "span" [("class", "bbcode-size-1")] [Node.text "x"]] := by
  refine ⟨?_, rfl⟩
  intro p ns h
  have hs : sizeNum p = 1 := by
    rcases h with h | h <;> simp [sizeNum, h]
  show [Node.element "span" [("class", "bbcode-size-" ++ toString (sizeNum p))] ns] = _
  rw [hs]
  rfl

theorem claim_c8_witness :
    applyPRec .sizeFirst "huge" [] =
      [Node.element "span" [("class", "bbcode-size-1")] []] :=
  claim_c8_size_fallback.1 "huge" [] (Or.inl rfl)

/-- C9: the spoiler emitter returns a `div` of class `spoiler` exactly when
its raw contents contain the substring `"<img"` case-insensitively, and a
`span` of class `spoiler` otherwise; in both cases the raw, unreprocessed
contents are the element's single (text) child. -/
theorem claim_c9_spoiler :
    ∀ s : List Char,
      (hasImgCI s = true ↔ HasImgCI s) ∧
      (hasImgCI s = true → applyRaw .spoiler (String.mk s) =
        [Node.element "div" [("class", "spoiler")] [Node.text (String.mk s)]]) ∧
      (hasImgCI s = false → applyRaw .spoiler (String.mk s) =
        [Node.element "span" [("class", "spoiler")] [Node.text (String.mk s)]]) := by
  intro s
  refine ⟨hasImgCI_iff s, fun h => ?_, fun h => ?_⟩
  · simp only [applyRaw]
    simp [h]
  · simp only [applyRaw]
    simp [h]

theorem claim_c9_witness :
    applyRaw .spoiler "a<IMG" =
      [Node.element "div" [("class", "spoiler")] [Node.text "a<IMG"]] ∧
    applyRaw .spoiler "abc" =
      [Node.element "span" [("class", "spoiler")] [Node.text "abc"]] :=
  ⟨(claim_c9_spoiler ("a<IMG".data)).2.1 (by decide),
   (claim_c9_spoiler ("abc".data)).2.2 (by decide)⟩

/-- C10: the `[code]` block emitter returns a `p` element containing a `pre`
element whose single child is the accumulated interior rejoined with `"\n"`;
the interior is never reprocessed, so the bracket tokens in
`["[code]", "[b]x[/b]", "[/code]"]` are preserved literally. -/
theorem claim_c10_code_block :
    (∀ lines : List (List Char), codeEmitter lines =
      Node.element "p" [] [Node.element "pre" [] [Node.text (String.mk (joinNl lines))]]) ∧
    blockScan 6 10 ["[code]".data, "[b]x[/b]".data, "[/code]".data] =
      [Node.element "p" [] [Node.element "pre" [] [Node.text "[b]x[/b]"]]] :=
  ⟨fun _ => rfl, rfl⟩

end BBCode
